import Mathlib

/-!
Shallow embedding of the core logic of the ApiSceneEditor repository:
the response-envelope interpreter of `LunchWithAPIClient.request`
(client/src/lib/lunchWithApi.ts), the account/token resolver of
`CognitoAuthService` (cognitoAuth.ts), and the forwarding proxy's
request construction (`proxyToLunchWithAPI` in server/routes.ts).

JavaScript values produced by `JSON.parse` are embedded as the `Json`
inductive; JavaScript built-ins used by the source (`String.prototype.match`
with the source's regexes, `String.prototype.split`, `String.prototype.trim`,
`parseInt`, `JSON.parse`, `JSON.stringify`, `Math.min`/`Math.max`,
truthiness) are modelled from their standard semantics on the value
domains the source feeds them.
-/

/-- Model of a parsed JSON / JavaScript value as produced by `JSON.parse`.
Numeric values are carried as integers: JSON number syntax is recognised in
full by the parser model below, but only the integral part is retained,
since no behaviour modelled here inspects a numeric value. -/
inductive Json where
  | null : Json
  | bool (b : Bool) : Json
  | num (n : Int) : Json
  | str (s : String) : Json
  | arr (elems : List Json) : Json
  | obj (fields : List (String × Json)) : Json
deriving Repr, BEq

/-- JavaScript truthiness of a value (`if (v)`): `null`, `false`, `0` and
the empty string are falsy; arrays and objects are always truthy. -/
def truthy : Json → Bool
  | Json.null => false
  | Json.bool b => b
  | Json.num n => n != 0
  | Json.str s => s != ""
  | Json.arr _ => true
  | Json.obj _ => true

/-- Reading property `k` of a JavaScript object: the last binding wins,
matching the collapsing of duplicate keys done by `JSON.parse`. -/
def lookupLast (fields : List (String × Json)) (k : String) : Option Json :=
  match fields with
  | [] => none
  | p :: rest =>
    match lookupLast rest k with
    | some v => some v
    | none => if p.1 = k then some p.2 else none

/-! ## Response interpreter (`LunchWithAPIClient.request`, unwrapping step)

The source classifies the endpoint with two regexes:
`/[a-f0-9-]{36}/gi` (count of UUID-shaped substrings, global scan) and
`/\/[a-f0-9-]{36}$/i` (a slash followed by 36 UUID characters at the end
of the path). -/

/-- Character class `[a-f0-9-]` under the case-insensitive flag. -/
def isUuidChar (c : Char) : Bool :=
  ('a' ≤ c && c ≤ 'f') || ('A' ≤ c && c ≤ 'F') || ('0' ≤ c && c ≤ '9') || c == '-'

/-- Left-to-right scan behind `countUuidMatches`: `k` counts the UUID
characters accumulated since the last match or the last non-UUID
character; reaching 36 records one match and restarts the count, which is
exactly the non-overlapping advance of a global regex whose match length
is fixed at 36. -/
def uuidScanAux : List Char → Nat → Nat
  | [], _ => 0
  | c :: rest, k =>
    if isUuidChar c then
      if k + 1 = 36 then 1 + uuidScanAux rest 0
      else uuidScanAux rest (k + 1)
    else uuidScanAux rest 0

/-- Number of matches of the global regex `/[a-f0-9-]{36}/gi` on a string:
within each maximal run of characters of the class, the engine takes
non-overlapping matches of exactly 36 characters from the left. -/
def countUuidMatches (cs : List Char) : Nat :=
  uuidScanAux cs 0

/-- Test of the anchored regex `/\/[a-f0-9-]{36}$/i`: the match has fixed
length 37 and is anchored at the end, so it succeeds exactly when the last
36 characters are UUID characters preceded by a slash. -/
def endsWithSlashUuid (cs : List Char) : Bool :=
  let n := cs.length
  decide (37 ≤ n) && (cs.drop (n - 36)).all isUuidChar && (cs.get? (n - 37) == some '/')

/-- Decides whether `pat` occurs as a contiguous run at the head of `cs`. -/
def leadsWith : List Char → List Char → Bool
  | [], _ => true
  | _ :: _, [] => false
  | p :: ps, c :: cs => p == c && leadsWith ps cs

/-- Decides whether `pat` occurs contiguously anywhere in `cs`
(the model of `String.prototype.includes`). -/
def hasRun (pat : List Char) : List Char → Bool
  | [] => pat.isEmpty
  | c :: rest => leadsWith pat (c :: rest) || hasRun pat rest

/-- Endpoint classification of the source: for endpoints containing the
literal `/cast/`, a specific resource needs exactly two UUID matches
(scene id and cast id); any other endpoint is specific when it ends in a
slash-preceded UUID. -/
def isSpecificResource (endpoint : String) : Bool :=
  if hasRun "/cast/".data endpoint.data then
    countUuidMatches endpoint.data == 2
  else
    endsWithSlashUuid endpoint.data

/-- Unwrapping step applied when the envelope's `results` value is an
array: a one-element array is unwrapped to its element when the method is
PUT or POST or the endpoint is a specific resource; otherwise the array is
returned unchanged. -/
def unwrapResults (endpoint method : String) (results : List Json) : Json :=
  if results.length == 1 && (method == "PUT" || method == "POST" || isSpecificResource endpoint)
  then results.headD Json.null
  else Json.arr results

/-- Interpretation of a parsed 2xx body by `request`: an object carrying a
`results` key has that value unwrapped (when it is an array) or returned
as-is (when it is not); every other body is returned unchanged. -/
def interpretResponse (endpoint method : String) (data : Json) : Json :=
  match data with
  | Json.obj fields =>
    match lookupLast fields "results" with
    | some (Json.arr results) => unwrapResults endpoint method results
    | some other => other
    | none => Json.obj fields
  | other => other

example : countUuidMatches "/scene/11111111-1111-1111-1111-111111111111".data = 1 := by decide
example : isSpecificResource "/scene/11111111-1111-1111-1111-111111111111" = true := by decide
example : isSpecificResource "/cast/11111111-1111-1111-1111-111111111111" = false := by decide
example :
    isSpecificResource
      "/cast/11111111-1111-1111-1111-111111111111/22222222-2222-2222-2222-222222222222" = true := by
  decide
example : unwrapResults "/scene/" "GET" [Json.str "a", Json.str "b"]
    = Json.arr [Json.str "a", Json.str "b"] := rfl
example : unwrapResults "/scene/" "PUT" [Json.str "a"] = Json.str "a" := rfl

/-- Key-presence test `k in data` of the envelope check in `request`. -/
def hasResultsKey : Json → Bool
  | Json.obj fields => fields.any (fun p => p.1 == "results")
  | _ => false

/-- Value of the `results` property of a body, when the body is an object
carrying one. -/
def resultsValue : Json → Option Json
  | Json.obj fields => lookupLast fields "results"
  | _ => none

/-- Test `Array.isArray`. -/
def isArr : Json → Bool
  | Json.arr _ => true
  | _ => false

theorem lookupLast_eq_none (fields : List (String × Json)) (k : String)
    (h : ∀ p ∈ fields, p.1 ≠ k) : lookupLast fields k = none := by
  induction fields with
  | nil => rfl
  | cons p rest ih =>
    have hp : p.1 ≠ k := h p (List.mem_cons_self p rest)
    have hrest := ih (fun q hq => h q (List.mem_cons_of_mem p hq))
    simp [lookupLast, hrest, hp]

theorem arr_singleton_ne (j : Json) : Json.arr [j] ≠ j := by
  intro h
  have h2 := congrArg sizeOf h
  simp at h2
  omega

/-- The Boolean unwrap condition of the source, as a proposition. -/
theorem unwrap_cond_iff (endpoint method : String) (results : List Json) :
    (results.length == 1 &&
        (method == "PUT" || method == "POST" || isSpecificResource endpoint)) = true ↔
      (results.length = 1 ∧
        (method = "PUT" ∨ method = "POST" ∨ isSpecificResource endpoint = true)) := by
  simp [Bool.and_eq_true, Bool.or_eq_true, beq_iff_eq, or_assoc]

/-- C1: the unwrapping step returns the single element `results[0]` exactly
when `results` has length one and the method is PUT or POST or the
endpoint classifies as a specific single resource; in every other case it
returns the full sequence unchanged. -/
theorem response_unwrap_rule (endpoint method : String) (results : List Json) :
    ((∃ r, results = [r] ∧ unwrapResults endpoint method results = r) ↔
      (results.length = 1 ∧
        (method = "PUT" ∨ method = "POST" ∨ isSpecificResource endpoint = true)))
  ∧ (¬(results.length = 1 ∧
        (method = "PUT" ∨ method = "POST" ∨ isSpecificResource endpoint = true)) →
      unwrapResults endpoint method results = Json.arr results) := by
  constructor
  · constructor
    · rintro ⟨r, rfl, hr⟩
      by_cases hc : ([r].length == 1 &&
          (method == "PUT" || method == "POST" || isSpecificResource endpoint)) = true
      · exact unwrap_cond_iff endpoint method [r] |>.mp hc
      · exfalso
        rw [unwrapResults, if_neg hc] at hr
        exact arr_singleton_ne r hr
    · rintro ⟨hlen, hm⟩
      obtain ⟨r, rfl⟩ := List.length_eq_one.mp hlen
      refine ⟨r, rfl, ?_⟩
      rw [unwrapResults, if_pos (unwrap_cond_iff endpoint method [r] |>.mpr ⟨hlen, hm⟩)]
      rfl
  · intro hn
    have hc : ¬(results.length == 1 &&
        (method == "PUT" || method == "POST" || isSpecificResource endpoint)) = true :=
      fun h => hn (unwrap_cond_iff endpoint method results |>.mp h)
    rw [unwrapResults, if_neg hc]

/-- C1 witness: a PUT with a one-element results array is unwrapped. -/
theorem response_unwrap_rule_witness :
    ∃ r, [Json.str "a"] = [r] ∧ unwrapResults "/scene/" "PUT" [Json.str "a"] = r :=
  (response_unwrap_rule "/scene/" "PUT" [Json.str "a"]).1.mpr
    ⟨rfl, Or.inl rfl⟩

/-- C3: on a `/cast/` endpoint with method GET and a one-element results
sequence, one UUID in the path keeps the sequence (collection of cast
members), while two UUIDs unwrap to the single element. -/
theorem cast_uuid_rules (endpoint method : String) (r : Json)
    (hc : hasRun "/cast/".data endpoint.data = true) (hm : method = "GET") :
    (countUuidMatches endpoint.data = 1 → unwrapResults endpoint method [r] = Json.arr [r])
  ∧ (countUuidMatches endpoint.data = 2 → unwrapResults endpoint method [r] = r) := by
  subst hm
  constructor
  · intro h1
    have hspec : isSpecificResource endpoint = false := by
      simp [isSpecificResource, hc, h1]
    simp [unwrapResults, hspec]
  · intro h2
    have hspec : isSpecificResource endpoint = true := by
      simp [isSpecificResource, hc, h2]
    simp [unwrapResults, hspec]

/-- C3 witness: the two cast endpoint shapes evaluated on concrete paths. -/
theorem cast_uuid_rules_witness :
    unwrapResults "/cast/11111111-1111-1111-1111-111111111111" "GET" [Json.str "a"]
        = Json.arr [Json.str "a"]
  ∧ unwrapResults
        "/cast/11111111-1111-1111-1111-111111111111/22222222-2222-2222-2222-222222222222"
        "GET" [Json.str "a"]
        = Json.str "a" :=
  ⟨(cast_uuid_rules "/cast/11111111-1111-1111-1111-111111111111" "GET" (Json.str "a")
      (by decide) rfl).1 (by decide),
   (cast_uuid_rules
      "/cast/11111111-1111-1111-1111-111111111111/22222222-2222-2222-2222-222222222222"
      "GET" (Json.str "a") (by decide) rfl).2 (by decide)⟩

/-- C7: a results sequence with more than one element is passed through
unchanged for every method and endpoint, both at the unwrapping step and
for a full envelope body. -/
theorem multi_results_passthrough (endpoint method : String) (results : List Json)
    (h : 1 < results.length) :
    unwrapResults endpoint method results = Json.arr results
  ∧ interpretResponse endpoint method (Json.obj [("results", Json.arr results)])
      = Json.arr results := by
  have hne : results.length ≠ 1 := by omega
  have h1 : unwrapResults endpoint method results = Json.arr results := by
    simp [unwrapResults, hne]
  exact ⟨h1, by simp [interpretResponse, lookupLast, h1]⟩

/-- C7 witness: a two-element sequence on a specific-resource endpoint is
returned unchanged. -/
theorem multi_results_passthrough_witness :
    unwrapResults "/scene/11111111-1111-1111-1111-111111111111" "GET"
        [Json.str "a", Json.str "b"]
      = Json.arr [Json.str "a", Json.str "b"]
  ∧ interpretResponse "/scene/11111111-1111-1111-1111-111111111111" "GET"
        (Json.obj [("results", Json.arr [Json.str "a", Json.str "b"])])
      = Json.arr [Json.str "a", Json.str "b"] :=
  multi_results_passthrough "/scene/11111111-1111-1111-1111-111111111111" "GET"
    [Json.str "a", Json.str "b"] (by decide)

/-- C8: interpretation is total and never fabricates: a body that is not
an object carrying a `results` key is returned unchanged, and a `results`
value that is not an array is returned as-is. -/
theorem interpreter_never_raises (endpoint method : String) (data : Json) :
    (hasResultsKey data = false → interpretResponse endpoint method data = data)
  ∧ (∀ v, resultsValue data = some v → isArr v = false →
      interpretResponse endpoint method data = v) := by
  constructor
  · intro h
    match data with
    | Json.null | Json.bool _ | Json.num _ | Json.str _ | Json.arr _ => rfl
    | Json.obj fields =>
      have hnone : lookupLast fields "results" = none := by
        apply lookupLast_eq_none
        intro p hp
        simp [hasResultsKey, List.any_eq_true] at h
        exact h p.1 p.2 hp
      simp [interpretResponse, hnone]
  · intro v hv hvarr
    match data with
    | Json.null | Json.bool _ | Json.num _ | Json.str _ | Json.arr _ =>
      simp [resultsValue] at hv
    | Json.obj fields =>
      have hv' : lookupLast fields "results" = some v := hv
      match v with
      | Json.arr _ => simp [isArr] at hvarr
      | Json.null | Json.bool _ | Json.num _ | Json.str _ | Json.obj _ =>
        simp [interpretResponse, hv']

/-- C8 witness: a body without a `results` key passes through, and a
non-array `results` value is returned as-is. -/
theorem interpreter_never_raises_witness :
    interpretResponse "/scene/" "GET" (Json.str "x") = Json.str "x"
  ∧ interpretResponse "/scene/" "GET" (Json.obj [("results", Json.str "y")])
      = Json.str "y" :=
  ⟨(interpreter_never_raises "/scene/" "GET" (Json.str "x")).1 rfl,
   (interpreter_never_raises "/scene/" "GET" (Json.obj [("results", Json.str "y")])).2
      (Json.str "y") rfl rfl⟩

/-- C10: an envelope whose `results` field is the empty array is returned
as that empty array for every endpoint and method. -/
theorem empty_results_passthrough (endpoint method : String)
    (fields : List (String × Json))
    (h : lookupLast fields "results" = some (Json.arr [])) :
    interpretResponse endpoint method (Json.obj fields) = Json.arr [] := by
  simp [interpretResponse, h, unwrapResults]

/-- C10 witness: a concrete empty envelope on a specific-resource GET. -/
theorem empty_results_passthrough_witness :
    interpretResponse "/scene/11111111-1111-1111-1111-111111111111" "GET"
      (Json.obj [("results", Json.arr []), ("statusCode", Json.num 200)])
      = Json.arr [] :=
  empty_results_passthrough "/scene/11111111-1111-1111-1111-111111111111" "GET"
    [("results", Json.arr []), ("statusCode", Json.num 200)] rfl

/-! ## Models of the JavaScript built-ins used by the resolver

`JSON.parse` is a recursive-descent reading of the JSON grammar (with a
fuel argument bounding nesting, which input length makes sufficient);
`JSON.stringify` is its emitter; `parseInt(s, 10)`, `trim`, `split` follow
the ECMAScript definitions on the value domains the source feeds them. -/

/-- JSON insignificant whitespace (space, tab, line feed, carriage return). -/
def skipWs (cs : List Char) : List Char :=
  cs.dropWhile (fun c => c == ' ' || c == '\t' || c == '\n' || c == '\r')

/-- Value of a hexadecimal digit. -/
def hexVal (c : Char) : Option Nat :=
  if '0' ≤ c ∧ c ≤ '9' then some (c.toNat - '0'.toNat)
  else if 'a' ≤ c ∧ c ≤ 'f' then some (c.toNat - 'a'.toNat + 10)
  else if 'A' ≤ c ∧ c ≤ 'F' then some (c.toNat - 'A'.toNat + 10)
  else none

/-- Single-character JSON string escapes. -/
def escapeCode : Char → Option Char
  | '"' => some '"'
  | '\\' => some '\\'
  | '/' => some '/'
  | 'b' => some (Char.ofNat 8)
  | 'f' => some (Char.ofNat 12)
  | 'n' => some '\n'
  | 'r' => some '\r'
  | 't' => some '\t'
  | _ => none

/-- Body of a JSON string after the opening quote: plain characters up to
the closing quote, escapes decoded, raw control characters rejected. -/
def parseStrBody : List Char → Option (List Char × List Char)
  | [] => none
  | '"' :: rest => some ([], rest)
  | '\\' :: 'u' :: h1 :: h2 :: h3 :: h4 :: rest =>
    match hexVal h1, hexVal h2, hexVal h3, hexVal h4 with
    | some a, some b, some c, some d =>
      (fun p => (Char.ofNat (((a * 16 + b) * 16 + c) * 16 + d) :: p.1, p.2)) <$>
        parseStrBody rest
    | _, _, _, _ => none
  | '\\' :: e :: rest =>
    match escapeCode e with
    | some c => (fun p => (c :: p.1, p.2)) <$> parseStrBody rest
    | none => none
  | c :: rest =>
    if c.toNat < 32 then none
    else (fun p => (c :: p.1, p.2)) <$> parseStrBody rest

/-- Natural number denoted by a list of decimal digits. -/
def digitsVal (ds : List Char) : Nat :=
  ds.foldl (fun acc c => acc * 10 + (c.toNat - '0'.toNat)) 0

/-- JSON number token: sign, integer part without leading zeros, optional
fraction and exponent. The returned value keeps the integral part only
(no modelled behaviour reads a numeric value). -/
def parseNum (cs : List Char) : Option (Int × List Char) :=
  let signed := match cs with
    | '-' :: rest => (true, rest)
    | _ => (false, cs)
  let neg := signed.1
  let cs1 := signed.2
  match cs1 with
  | [] => none
  | c :: _ =>
    if !c.isDigit then none
    else
      let intDigits := cs1.takeWhile Char.isDigit
      let rest1 := cs1.dropWhile Char.isDigit
      if 1 < intDigits.length ∧ intDigits.headD '0' = '0' then none
      else
        let afterFrac : Option (List Char) :=
          match rest1 with
          | '.' :: rest2 =>
            if (rest2.takeWhile Char.isDigit).isEmpty then none
            else some (rest2.dropWhile Char.isDigit)
          | _ => some rest1
        match afterFrac with
        | none => none
        | some rest2 =>
          let afterExp : Option (List Char) :=
            match rest2 with
            | e :: rest3 =>
              if e = 'e' ∨ e = 'E' then
                let rest4 := match rest3 with
                  | '+' :: r => r
                  | '-' :: r => r
                  | _ => rest3
                if (rest4.takeWhile Char.isDigit).isEmpty then none
                else some (rest4.dropWhile Char.isDigit)
              else some rest2
            | [] => some rest2
          match afterExp with
          | none => none
          | some rest5 =>
            let v : Int := Int.ofNat (digitsVal intDigits)
            some (if neg then -v else v, rest5)

mutual

/-- One JSON value with leading whitespace, returning the unread rest. -/
def parseVal : Nat → List Char → Option (Json × List Char)
  | 0, _ => none
  | Nat.succ fuel, cs =>
    match skipWs cs with
    | [] => none
    | '"' :: rest =>
      (fun p => (Json.str (String.mk p.1), p.2)) <$> parseStrBody rest
    | '[' :: rest =>
      match skipWs rest with
      | ']' :: rest2 => some (Json.arr [], rest2)
      | _ => (fun p => (Json.arr p.1, p.2)) <$> parseElems fuel rest
    | '{' :: rest =>
      match skipWs rest with
      | '}' :: rest2 => some (Json.obj [], rest2)
      | _ => (fun p => (Json.obj p.1, p.2)) <$> parseMembers fuel rest
    | 'n' :: rest =>
      if leadsWith "ull".data rest then some (Json.null, rest.drop 3) else none
    | 't' :: rest =>
      if leadsWith "rue".data rest then some (Json.bool true, rest.drop 3) else none
    | 'f' :: rest =>
      if leadsWith "alse".data rest then some (Json.bool false, rest.drop 4) else none
    | c :: rest =>
      if c = '-' ∨ c.isDigit then
        (fun p => (Json.num p.1, p.2)) <$> parseNum (c :: rest)
      else none

/-- Comma-separated element list of a non-empty JSON array, consuming the
closing bracket. -/
def parseElems : Nat → List Char → Option (List Json × List Char)
  | 0, _ => none
  | Nat.succ fuel, cs =>
    match parseVal fuel cs with
    | none => none
    | some (v, rest) =>
      match skipWs rest with
      | ',' :: rest2 => (fun p => (v :: p.1, p.2)) <$> parseElems fuel rest2
      | ']' :: rest2 => some ([v], rest2)
      | _ => none

/-- Comma-separated member list of a non-empty JSON object, consuming the
closing brace. -/
def parseMembers : Nat → List Char → Option (List (String × Json) × List Char)
  | 0, _ => none
  | Nat.succ fuel, cs =>
    match skipWs cs with
    | '"' :: rest =>
      match parseStrBody rest with
      | none => none
      | some (k, rest1) =>
        match skipWs rest1 with
        | ':' :: rest2 =>
          match parseVal fuel rest2 with
          | none => none
          | some (v, rest3) =>
            match skipWs rest3 with
            | ',' :: rest4 =>
              (fun p => ((String.mk k, v) :: p.1, p.2)) <$> parseMembers fuel rest4
            | '}' :: rest4 => some ([(String.mk k, v)], rest4)
            | _ => none
        | _ => none
    | _ => none

end

/-- Model of `JSON.parse` on a character list: a single value followed by
nothing but whitespace, with fuel amply covering any nesting the input
could express. -/
def jsonParseChars (cs : List Char) : Option Json :=
  match parseVal (2 * cs.length + 2) cs with
  | some (v, rest) => if (skipWs rest).isEmpty then some v else none
  | none => none

/-- Model of `JSON.parse`. -/
def jsonParse (s : String) : Option Json :=
  jsonParseChars s.data

/-- String escaping of `JSON.stringify` for the characters the source can
feed it (quote, backslash and common controls; other control characters
would be hex-escaped by the engine and never occur in the modelled data). -/
def jsonEscapeChar (c : Char) : List Char :=
  if c == '"' then ['\\', '"']
  else if c == '\\' then ['\\', '\\']
  else if c == '\n' then ['\\', 'n']
  else if c == '\t' then ['\\', 't']
  else if c == '\r' then ['\\', 'r']
  else [c]

/-- Quoted, escaped JSON representation of a string. -/
def jsonQuote (s : String) : List Char :=
  '"' :: (s.data.map jsonEscapeChar).flatten ++ ['"']

mutual

/-- Model of `JSON.stringify` (compact form, character list). -/
def jsonStringifyChars : Json → List Char
  | Json.null => "null".data
  | Json.bool true => "true".data
  | Json.bool false => "false".data
  | Json.num n => (toString n).data
  | Json.str s => jsonQuote s
  | Json.arr elems => '[' :: stringifyElems elems ++ [']']
  | Json.obj fields => '{' :: stringifyFields fields ++ ['}']

/-- Comma-joined serialisations of array elements. -/
def stringifyElems : List Json → List Char
  | [] => []
  | [x] => jsonStringifyChars x
  | x :: y :: rest => jsonStringifyChars x ++ ',' :: stringifyElems (y :: rest)

/-- Comma-joined serialisations of object members. -/
def stringifyFields : List (String × Json) → List Char
  | [] => []
  | [p] => jsonQuote p.1 ++ ':' :: jsonStringifyChars p.2
  | p :: q :: rest =>
    jsonQuote p.1 ++ ':' :: jsonStringifyChars p.2 ++ ',' :: stringifyFields (q :: rest)

end

/-- Model of `JSON.stringify`. -/
def jsonStringify (j : Json) : String :=
  String.mk (jsonStringifyChars j)

example : jsonStringify (Json.arr [Json.str "a", Json.str "b"]) = "[\"a\",\"b\"]" := rfl
example : jsonParse "[\"a\",\"b\"]" = some (Json.arr [Json.str "a", Json.str "b"]) := rfl
example : jsonParse "[\"a\",\"b\"" = none := rfl
example : jsonParse " \x7b \"k\" : [1, true, null] \x7d "
    = some (Json.obj [("k", Json.arr [Json.num 1, Json.bool true, Json.null])]) := rfl

/-- Whitespace trimmed by `String.prototype.trim` (ASCII portion; no
modelled value carries the exotic Unicode space characters). -/
def jsWsChar (c : Char) : Bool :=
  c == ' ' || c == '\t' || c == '\n' || c == '\r' ||
    c == Char.ofNat 11 || c == Char.ofNat 12

/-- Model of `String.prototype.trim` on a character list. -/
def jsTrim (cs : List Char) : List Char :=
  ((cs.dropWhile jsWsChar).reverse.dropWhile jsWsChar).reverse

/-- Model of `String.prototype.split` with a one-character separator:
JavaScript keeps empty segments, and an empty input gives one empty
segment. -/
def splitOnChar (sep : Char) : List Char → List (List Char)
  | [] => [[]]
  | c :: rest =>
    let r := splitOnChar sep rest
    if c == sep then [] :: r
    else
      match r with
      | h :: t => (c :: h) :: t
      | [] => [[c]]

/-- Model of `parseInt(s, 10)`: leading whitespace skipped, optional sign,
then the longest run of decimal digits; `none` models `NaN`. -/
def parseInt10 (s : String) : Option Int :=
  let cs := s.data.dropWhile jsWsChar
  let signed := match cs with
    | '-' :: rest => (true, rest)
    | '+' :: rest => (false, rest)
    | _ => (false, cs)
  let ds := signed.2.takeWhile Char.isDigit
  if ds.isEmpty then none
  else some (if signed.1 then -(Int.ofNat (digitsVal ds)) else Int.ofNat (digitsVal ds))

example : parseInt10 "5" = some 5 := rfl
example : parseInt10 "-3" = some (-3) := rfl
example : parseInt10 "abc" = none := rfl
example : parseInt10 " 12abc" = some 12 := rfl
example : splitOnChar ',' "a,, b".data = ["a".data, "".data, " b".data] := rfl

/-! ## Account/token resolver (`CognitoAuthService`)

The decoded ID-token payload is read at three claims:
`custom:lwai_accounts`, `custom:user_id` and `sub`. The first two can be
any JSON value or absent; `sub` is always present per the issuing identity
system's contract. -/

/-- Decoded ID-token payload restricted to the claims the service reads. -/
structure IdTokenPayload where
  lwai_accounts : Option Json
  user_id : Option Json
  sub : String

/-- Comma-delimited branch of the multi-account parsing: split on commas,
trim each segment, drop the falsy (empty) segments. -/
def commaSplitIds (cs : List Char) : List String :=
  ((splitOnChar ',' cs).map jsTrim).filterMap
    (fun seg => if seg.isEmpty then none else some (String.mk seg))

/-- JSON-array attempt of the multi-account parsing: only tried when the
trimmed claim begins with a bracket, kept only when `JSON.parse` succeeds
with a non-empty array. -/
def lwaiViaJson (trimmed : List Char) : Option (List Json) :=
  match trimmed with
  | '[' :: _ =>
    match jsonParseChars trimmed with
    | some (Json.arr parsed) => if 0 < parsed.length then some parsed else none
    | _ => none
  | _ => none

/-- String case of the `custom:lwai_accounts` claim: trim, try the JSON
array form, then fall back to comma-delimited splitting (kept when it
yields at least one segment, else the branch falls through with `[]`). -/
def lwaiFromString (s : String) : List Json :=
  match lwaiViaJson (jsTrim s.data) with
  | some parsed => parsed
  | none =>
    if 0 < (commaSplitIds (jsTrim s.data)).length then
      (commaSplitIds (jsTrim s.data)).map Json.str
    else []

/-- Value the `custom:lwai_accounts` branch of `extractAllLwaiUserIds`
returns, or `[]` when that branch falls through (each early `return` in
the source returns a non-empty list). A non-string truthy value
contributes only when it is a non-empty array. -/
def multiAccountIds (p : IdTokenPayload) : List Json :=
  match p.lwai_accounts with
  | none => []
  | some v =>
    if truthy v then
      match v with
      | Json.str s => lwaiFromString s
      | Json.arr xs => if 0 < xs.length then xs else []
      | _ => []
    else []

/-- Value the `custom:user_id` fallback returns, or `[]` when that claim
is absent or falsy. -/
def singleAccountIds (p : IdTokenPayload) : List Json :=
  match p.user_id with
  | some v => if truthy v then [v] else []
  | none => []

/-- Model of `CognitoAuthService.extractAllLwaiUserIds`: the first
non-empty source wins, with the subject identifier as last resort. Each
early `return` of the source returns a non-empty list, so falling through
a source is the same as that source yielding the empty list here. -/
def extractAllLwaiUserIds (p : IdTokenPayload) : List Json :=
  let multi := multiAccountIds p
  if 0 < multi.length then multi
  else
    let single := singleAccountIds p
    if 0 < single.length then single
    else [Json.str p.sub]

/-- LocalStorage keys the service persists, each holding a raw string as
`localStorage` does (`none` models an absent key). -/
structure LocalStore where
  username : Option String
  user_id : Option String
  available_user_ids : Option String
  selected_user_id_index : Option String
deriving Repr, DecidableEq

/-- Expression `localStorage.getItem(k) || d`: an absent key gives `null`
and the empty string is falsy, so both fall back to the default. -/
def getItemOr (stored : Option String) (d : String) : String :=
  match stored with
  | none => d
  | some s => if s = "" then d else s

/-- Stored selected index as read by the resolver before clamping:
`parseInt(localStorage.getItem(...) || '0', 10)` with `NaN` replaced by 0. -/
def parsedStoredIndex (stored : Option String) : Int :=
  (parseInt10 (getItemOr stored "0")).getD 0

/-- Clamping step of `signIn` and `getCurrentSession`:
`Math.min(Math.max(0, selectedIndex), availableUserIds.length - 1)`. -/
def resolveSafeIndex (stored : Option String) (n : Nat) : Int :=
  min (max 0 (parsedStoredIndex stored)) ((n : Int) - 1)

mutual

/-- JavaScript `String(v)` coercion, as applied by `localStorage.setItem`. -/
def jsToString : Json → String
  | Json.null => "null"
  | Json.bool true => "true"
  | Json.bool false => "false"
  | Json.num n => toString n
  | Json.str s => s
  | Json.arr xs => jsJoinComma xs
  | Json.obj _ => "[object Object]"

/-- Array coercion `Array.prototype.toString` = `join(',')`, where a null
element renders as the empty string. -/
def jsJoinComma : List Json → String
  | [] => ""
  | [Json.null] => ""
  | [x] => jsToString x
  | Json.null :: y :: rest => "," ++ jsJoinComma (y :: rest)
  | x :: y :: rest => jsToString x ++ "," ++ jsJoinComma (y :: rest)

end

/-- Property `.length` of a JavaScript value: arrays and strings have one,
anything else gives `undefined` (so an `index >= length` comparison is
false). -/
def jsLength : Json → Option Nat
  | Json.arr xs => some xs.length
  | Json.str s => some s.length
  | _ => none

/-- Indexing `v[i]` with an integer index: array element or string
character, `undefined` elsewhere or out of range. -/
def jsIndexGet : Json → Int → Option Json
  | Json.arr xs, i => if i < 0 then none else xs[i.toNat]?
  | Json.str s, i =>
    if i < 0 then none
    else (s.data[i.toNat]?).map (fun c => Json.str (String.mk [c]))
  | _, _ => none

/-- Resolved user visible to the caller of `signIn`/`getCurrentSession`. -/
structure SessionUser where
  username : String
  userId : Option Json
  availableUserIds : List Json
deriving Repr

/-- Core of `getCurrentSession` (the `signIn` success handler performs the
identical extraction, clamp and persistence with the entered username):
extract the available ids from the token payload, clamp the stored index,
select the active id, and overwrite the persisted store. -/
def resolveSession (p : IdTokenPayload) (store : LocalStore) : SessionUser × LocalStore :=
  let username := getItemOr store.username ""
  let availableUserIds := extractAllLwaiUserIds p
  let safeIndex := resolveSafeIndex store.selected_user_id_index availableUserIds.length
  let userId := if safeIndex < 0 then none else availableUserIds[safeIndex.toNat]?
  ({ username := username, userId := userId, availableUserIds := availableUserIds },
   { store with
      user_id := some (match userId with
        | some v => jsToString v
        | none => "undefined")
      available_user_ids := some (jsonStringify (Json.arr availableUserIds))
      selected_user_id_index := some (toString safeIndex) })

/-- Model of `CognitoAuthService.switchUserAccount`: parse the persisted
id list, validate the requested index before any write (so a failed switch
leaves the store untouched), then persist the new index and active id. -/
def switchUserAccount (store : LocalStore) (index : Int) :
    Except String Unit × LocalStore :=
  match jsonParse (getItemOr store.available_user_ids "[]") with
  | none => (Except.error "SyntaxError", store)
  | some availableUserIds =>
    if index < 0 ||
        (match jsLength availableUserIds with
         | some n => decide ((n : Int) ≤ index)
         | none => false) then
      (Except.error "Invalid user account index", store)
    else
      (Except.ok (),
       { store with
          selected_user_id_index := some (toString index)
          user_id := some (match jsIndexGet availableUserIds index with
            | some v => jsToString v
            | none => "undefined") })

/-! ## Forwarding proxy (`proxyToLunchWithAPI` in the server routes) -/

/-- Upstream request as assembled by the proxy before `fetch`. -/
structure UpstreamRequest where
  url : String
  method : String
  contentType : String
  authorization : String
  xLwaiUserId : Option String
  body : Option String
deriving Repr, DecidableEq

/-- Model of `String.prototype.toUpperCase` on the ASCII method names the
proxy receives. -/
def jsToUpper (s : String) : String :=
  String.mk (s.data.map Char.toUpper)

/-- Base URL of the upstream storytelling API. -/
def LUNCHWITH_API_BASE : String := "https://api2.lunchwith.ai"

/-- Model of `proxyToLunchWithAPI`: reattach headers and forward the
method unchanged; the JSON-serialised body is attached only when one was
supplied (and truthy) and the upper-cased method is PUT, POST or PATCH. -/
def proxyToLunchWithAPI (endpoint method apiKey : String) (userId : Option String)
    (body : Option Json) : UpstreamRequest :=
  { url := LUNCHWITH_API_BASE ++ endpoint
    method := method
    contentType := "application/json"
    authorization := apiKey
    xLwaiUserId := userId
    body :=
      match body with
      | some b =>
        if truthy b && ["PUT", "POST", "PATCH"].contains (jsToUpper method) then
          some (jsonStringify b)
        else none
      | none => none }

example : (jsToUpper "get" == "GET") = true := by decide
example : (["PUT", "POST", "PATCH"].contains (jsToUpper "GET")) = false := by decide
example : (["PUT", "POST", "PATCH"].contains (jsToUpper "post")) = true := by decide

/-- C2 counterexample: with two available ids and a persisted index "5"
(outside [0, 1]), the resolver clamps to index 1 — the last id — and not
to index 0 as claimed, so the active id is the second id, not the first. -/
theorem clamp_counterexample :
    resolveSafeIndex (some "5") 2 = 1
  ∧ resolveSafeIndex (some "5") 2 ≠ 0
  ∧ (resolveSession ⟨some (Json.str "a,b"), none, "s"⟩
        ⟨none, none, none, some "5"⟩).1.availableUserIds
      = [Json.str "a", Json.str "b"]
  ∧ (resolveSession ⟨some (Json.str "a,b"), none, "s"⟩
        ⟨none, none, none, some "5"⟩).1.userId
      = some (Json.str "b") := by
  refine ⟨by decide, by decide, rfl, rfl⟩

/-- C2 amended: with at least one available id, a missing, non-numeric or
non-positive persisted index resolves to index 0, an in-range index is
kept, but an index at or past the end is clamped to the last index N - 1
rather than 0. -/
theorem clamp_amended (stored : Option String) (n : Nat) (hn : 1 ≤ n) :
    (stored = none → resolveSafeIndex stored n = 0)
  ∧ (∀ s, stored = some s → parseInt10 s = none → resolveSafeIndex stored n = 0)
  ∧ (parsedStoredIndex stored ≤ 0 → resolveSafeIndex stored n = 0)
  ∧ ((n : Int) ≤ parsedStoredIndex stored →
      resolveSafeIndex stored n = (n : Int) - 1)
  ∧ (0 ≤ parsedStoredIndex stored → parsedStoredIndex stored < (n : Int) →
      resolveSafeIndex stored n = parsedStoredIndex stored) := by
  have hmm : ∀ p : Int, resolveSafeIndex stored n = min (max 0 (parsedStoredIndex stored)) ((n : Int) - 1) := fun _ => rfl
  have hn1 : (0 : Int) ≤ (n : Int) - 1 := by omega
  refine ⟨?_, ?_, ?_, ?_, ?_⟩
  · rintro rfl
    have hp : parsedStoredIndex (none : Option String) = 0 := rfl
    rw [hmm 0, hp]
    rw [Int.max_def, Int.min_def]
    split_ifs <;> omega
  · rintro s rfl hnan
    have hp : parsedStoredIndex (some s) = 0 := by
      by_cases hs : s = ""
      · subst hs
        rfl
      · simp [parsedStoredIndex, getItemOr, hs, hnan]
    rw [hmm 0, hp]
    rw [Int.max_def, Int.min_def]
    split_ifs <;> omega
  · intro hle
    rw [hmm 0, Int.max_def, Int.min_def]
    split_ifs <;> omega
  · intro hge
    rw [hmm 0, Int.max_def, Int.min_def]
    split_ifs <;> omega
  · intro h0 hlt
    rw [hmm 0, Int.max_def, Int.min_def]
    split_ifs <;> omega

/-- C2 amended witness: three available ids with stored index "7" resolve
to index 2; a stored "abc" resolves to index 0. -/
theorem clamp_amended_witness :
    resolveSafeIndex (some "7") 3 = 2 ∧ resolveSafeIndex (some "abc") 3 = 0 :=
  ⟨by
      have h := (clamp_amended (some "7") 3 (by decide)).2.2.2.1 (by decide)
      simpa using h,
   (clamp_amended (some "abc") 3 (by decide)).2.1 "abc" rfl (by decide)⟩

/-- C9: the forwarded upstream request keeps the incoming method; GET,
HEAD and DELETE requests carry no body even when one was supplied, while
PUT, POST and PATCH forward a supplied (truthy) body JSON-serialised. -/
theorem proxy_body_suppression (endpoint method apiKey : String)
    (userId : Option String) (b : Json) :
    ((method = "GET" ∨ method = "HEAD" ∨ method = "DELETE") →
      (proxyToLunchWithAPI endpoint method apiKey userId (some b)).body = none)
  ∧ ((method = "PUT" ∨ method = "POST" ∨ method = "PATCH") → truthy b = true →
      (proxyToLunchWithAPI endpoint method apiKey userId (some b)).body
        = some (jsonStringify b))
  ∧ (proxyToLunchWithAPI endpoint method apiKey userId (some b)).method = method := by
  refine ⟨?_, ?_, rfl⟩
  · rintro (rfl | rfl | rfl) <;>
      simp [proxyToLunchWithAPI] <;> exact fun _ => by decide
  · rintro (rfl | rfl | rfl) hb <;>
      simp [proxyToLunchWithAPI, hb] <;> decide

/-- C9 witness: a GET with a supplied body forwards none, a POST forwards
the serialised body, and both keep their method. -/
theorem proxy_body_suppression_witness :
    (proxyToLunchWithAPI "/scene" "GET" "k" none (some (Json.obj [("a", Json.num 1)]))).body
        = none
  ∧ (proxyToLunchWithAPI "/scene" "POST" "k" none (some (Json.obj [("a", Json.num 1)]))).body
        = some "\x7b\"a\":1\x7d"
  ∧ (proxyToLunchWithAPI "/scene" "GET" "k" none (some (Json.obj [("a", Json.num 1)]))).method
        = "GET" :=
  ⟨(proxy_body_suppression "/scene" "GET" "k" none (Json.obj [("a", Json.num 1)])).1
      (Or.inl rfl),
   (proxy_body_suppression "/scene" "POST" "k" none (Json.obj [("a", Json.num 1)])).2.1
      (Or.inr (Or.inl rfl)) rfl,
   (proxy_body_suppression "/scene" "GET" "k" none (Json.obj [("a", Json.num 1)])).2.2⟩

/-! ## Valid account identifiers

The cross-encoding properties of the multi-account claim hold for
identifiers built from the characters actually used by account ids
(alphanumerics, hyphen, underscore): such characters need no JSON
escaping and are neither whitespace, comma, quote nor bracket. -/

/-- Characters of a plain account identifier. -/
def plainIdChar (c : Char) : Bool :=
  ('a' ≤ c && c ≤ 'z') || ('A' ≤ c && c ≤ 'Z') || ('0' ≤ c && c ≤ '9') ||
    c == '-' || c == '_'

/-- Valid (plain, non-empty) account identifier. -/
def validId (s : String) : Bool :=
  !s.data.isEmpty && s.data.all plainIdChar

theorem plain_ranges (c : Char) (h : plainIdChar c = true) :
    ('a' ≤ c ∧ c ≤ 'z') ∨ ('A' ≤ c ∧ c ≤ 'Z') ∨ ('0' ≤ c ∧ c ≤ '9') ∨
      c = '-' ∨ c = '_' := by
  simp only [plainIdChar, Bool.or_eq_true, Bool.and_eq_true, beq_iff_eq,
    decide_eq_true_eq] at h
  tauto

theorem plain_lower (c : Char) (h : plainIdChar c = true) : 32 ≤ c.toNat := by
  rcases plain_ranges c h with ⟨h1, _⟩ | ⟨h1, _⟩ | ⟨h1, _⟩ | rfl | rfl
  · have h2 : 97 ≤ c.toNat := Char.le_def.mp h1
    omega
  · have h2 : 65 ≤ c.toNat := Char.le_def.mp h1
    omega
  · have h2 : 48 ≤ c.toNat := Char.le_def.mp h1
    omega
  · decide
  · decide

theorem plain_ne (c : Char) (h : plainIdChar c = true) (d : Char)
    (hd : plainIdChar d = false) : c ≠ d := by
  intro h2
  rw [h2] at h
  rw [h] at hd
  exact absurd hd (by decide)

theorem plain_not_ws (c : Char) (h : plainIdChar c = true) : jsWsChar c = false := by
  by_contra hw
  have hw2 : jsWsChar c = true := by
    cases hcw : jsWsChar c
    · exact absurd hcw hw
    · rfl
  simp only [jsWsChar, Bool.or_eq_true, beq_iff_eq] at hw2
  rcases hw2 with ((((rfl | rfl) | rfl) | rfl) | rfl) | rfl <;> exact absurd h (by decide)

theorem jsonEscapeChar_plain (c : Char) (h : plainIdChar c = true) :
    jsonEscapeChar c = [c] := by
  have e1 : (c == '"') = false := by
    simp [plain_ne c h '"' (by decide)]
  have e2 : (c == '\\') = false := by
    simp [plain_ne c h '\\' (by decide)]
  have e3 : (c == '\n') = false := by
    simp [plain_ne c h '\n' (by decide)]
  have e4 : (c == '\t') = false := by
    simp [plain_ne c h '\t' (by decide)]
  have e5 : (c == '\r') = false := by
    simp [plain_ne c h '\r' (by decide)]
  simp [jsonEscapeChar, e1, e2, e3, e4, e5]

/-- Plain strings need no JSON escaping. -/
theorem escape_plain (cs : List Char) (h : cs.all plainIdChar = true) :
    (cs.map jsonEscapeChar).flatten = cs := by
  induction cs with
  | nil => rfl
  | cons c rest ih =>
    rw [List.all_cons, Bool.and_eq_true] at h
    simp [jsonEscapeChar_plain c h.1, ih h.2]

theorem dropWhile_head_not_ws (cs : List Char)
    (h : ∀ c, cs.head? = some c → jsWsChar c = false) :
    cs.dropWhile jsWsChar = cs := by
  cases cs with
  | nil => rfl
  | cons c rest => simp [List.dropWhile_cons, h c rfl]

/-- Trimming is the identity when neither end is whitespace. -/
theorem jsTrim_eq_self (cs : List Char)
    (hh : ∀ c, cs.head? = some c → jsWsChar c = false)
    (hl : ∀ c, cs.getLast? = some c → jsWsChar c = false) : jsTrim cs = cs := by
  unfold jsTrim
  rw [dropWhile_head_not_ws cs hh]
  rw [dropWhile_head_not_ws cs.reverse (by
    intro c hc
    exact hl c (by rwa [List.head?_reverse] at hc))]
  exact List.reverse_reverse cs

/-- Comma encoding of a list of identifiers (the inverse direction of the
split: the string a caller would write the logical list as). -/
def joinCommaStrs : List String → List Char
  | [] => []
  | [s] => s.data
  | s :: y :: rest => s.data ++ ',' :: joinCommaStrs (y :: rest)

theorem splitOnChar_no_sep (sep : Char) (cs : List Char)
    (h : ∀ c ∈ cs, c ≠ sep) : splitOnChar sep cs = [cs] := by
  induction cs with
  | nil => rfl
  | cons c rest ih =>
    have hc : (c == sep) = false := by
      simp [h c (List.mem_cons_self c rest)]
    have hrest := ih (fun d hd => h d (List.mem_cons_of_mem c hd))
    simp [splitOnChar, hc, hrest]

theorem splitOnChar_append (sep : Char) (pre suffix : List Char)
    (h : ∀ c ∈ pre, c ≠ sep) :
    splitOnChar sep (pre ++ sep :: suffix) = pre :: splitOnChar sep suffix := by
  induction pre with
  | nil => simp [splitOnChar]
  | cons c rest ih =>
    have hc : (c == sep) = false := by
      simp [h c (List.mem_cons_self c rest)]
    have hrest := ih (fun d hd => h d (List.mem_cons_of_mem c hd))
    simp [splitOnChar, hc, hrest]

theorem plain_all_ne_comma (cs : List Char) (h : cs.all plainIdChar = true) :
    ∀ c ∈ cs, c ≠ ',' := by
  intro c hc
  exact plain_ne c (by
    rw [List.all_eq_true] at h
    exact h c hc) ',' (by decide)

theorem jsTrim_plain (cs : List Char) (h : cs.all plainIdChar = true) :
    jsTrim cs = cs := by
  rw [List.all_eq_true] at h
  refine jsTrim_eq_self cs ?_ ?_
  · intro c hc
    exact plain_not_ws c (h c (by
      cases cs with
      | nil => simp at hc
      | cons d rest =>
        rw [List.head?_cons, Option.some_inj] at hc
        exact hc ▸ List.mem_cons_self d rest))
  · intro c hc
    obtain ⟨hne2, rfl⟩ := List.mem_getLast?_eq_getLast (show c ∈ cs.getLast? from hc)
    exact plain_not_ws _ (h _ (List.getLast_mem hne2))

/-- Splitting the comma encoding of valid identifiers recovers the list. -/
theorem commaSplitIds_join (l : List String) (h : ∀ s ∈ l, validId s = true) :
    commaSplitIds (joinCommaStrs l) = l := by
  induction l with
  | nil => rfl
  | cons s rest ih =>
    have hs := h s (List.mem_cons_self s rest)
    rw [validId, Bool.and_eq_true] at hs
    have hplain := hs.2
    have hnonempty : s.data ≠ [] := by
      intro he
      rw [he] at hs
      exact absurd hs.1 (by decide)
    cases rest with
    | nil =>
      show commaSplitIds s.data = [s]
      unfold commaSplitIds
      rw [splitOnChar_no_sep ',' s.data (plain_all_ne_comma s.data hplain)]
      simp [jsTrim_plain s.data hplain, hnonempty]
    | cons y t =>
      show commaSplitIds (s.data ++ ',' :: joinCommaStrs (y :: t)) = s :: y :: t
      unfold commaSplitIds
      rw [splitOnChar_append ',' s.data _ (plain_all_ne_comma s.data hplain)]
      have ihr := ih (fun q hq => h q (List.mem_cons_of_mem s hq))
      unfold commaSplitIds at ihr
      simp only [List.map_cons, List.filterMap_cons, jsTrim_plain s.data hplain]
      rw [ihr]
      have hie : s.data.isEmpty = false := by
        cases hd : s.data with
        | nil => exact absurd hd hnonempty
        | cons a b => rfl
      simp [hie]

theorem skipWs_cons_of (c : Char) (rest : List Char)
    (h : (c == ' ' || c == '\t' || c == '\n' || c == '\r') = false) :
    skipWs (c :: rest) = c :: rest := by
  simp [skipWs, List.dropWhile_cons, h]

theorem parseStrBody_plain (id rest : List Char) (h : id.all plainIdChar = true) :
    parseStrBody (id ++ '"' :: rest) = some (id, rest) := by
  induction id with
  | nil => rfl
  | cons c cs ih =>
    rw [List.all_cons, Bool.and_eq_true] at h
    have h1 : c ≠ '"' := plain_ne c h.1 '"' (by decide)
    have h2 : c ≠ '\\' := plain_ne c h.1 '\\' (by decide)
    have h3 : ¬(c.toNat < 32) := by
      have := plain_lower c h.1
      omega
    rw [List.cons_append]
    rw [parseStrBody.eq_def]
    split
    · simp_all
    · simp_all
    · simp_all
    · simp_all
    · rename_i c2 rest2 heq
      rw [List.cons.injEq] at heq
      rw [if_neg (heq.1 ▸ h3)]
      rw [← heq.2, ih h.2]
      rw [heq.1]
      rfl

/-- Parsing a quoted valid identifier consumes exactly the quoted form. -/
theorem parseVal_quoted (s : String) (after : List Char) (fuel : Nat)
    (hv : validId s = true) :
    parseVal (fuel + 1) (jsonQuote s ++ after) = some (Json.str s, after) := by
  rw [validId, Bool.and_eq_true] at hv
  have hq : jsonQuote s ++ after = '"' :: (s.data ++ '"' :: after) := by
    unfold jsonQuote
    rw [escape_plain s.data hv.2]
    simp
  rw [hq]
  simp only [parseVal]
  rw [skipWs_cons_of '"' _ (by decide)]
  simp only [parseStrBody_plain s.data after hv.2, Option.map_eq_map, Option.map_some]

/-- Single unfolding step of `parseElems` at positive fuel. -/
theorem parseElems_step (fuel : Nat) (cs : List Char) :
    parseElems (fuel + 1) cs =
      match parseVal fuel cs with
      | none => none
      | some (v, rest) =>
        match skipWs rest with
        | ',' :: rest2 => (fun p => (v :: p.1, p.2)) <$> parseElems fuel rest2
        | ']' :: rest2 => some ([v], rest2)
        | _ => none := by
  simp only [parseElems]

/-- Unfolding of `parseVal` at positive fuel on a bracket-headed input. -/
theorem parseVal_bracket (fuel : Nat) (inner : List Char) :
    parseVal (fuel + 1) ('[' :: inner) =
      (match skipWs inner with
       | ']' :: rest2 => some (Json.arr [], rest2)
       | _ => (fun p => (Json.arr p.1, p.2)) <$> parseElems fuel inner) := by
  simp only [parseVal]
  rw [skipWs_cons_of '[' inner (by decide)]
  rfl

/-- Parsing the serialised elements of a non-empty list of valid ids up to
the closing bracket recovers the elements. -/
theorem parseElems_quoted (l : List String) (rest : List Char) (fuel : Nat)
    (h : ∀ s ∈ l, validId s = true) (hne : l ≠ []) (hfuel : l.length + 1 ≤ fuel) :
    parseElems fuel (stringifyElems (l.map Json.str) ++ ']' :: rest)
      = some (l.map Json.str, rest) := by
  induction l generalizing fuel rest with
  | nil => exact absurd rfl hne
  | cons s t ih =>
    rw [List.length_cons] at hfuel
    obtain ⟨f, rfl⟩ : ∃ f, fuel = f + 1 := ⟨fuel - 1, by omega⟩
    have hs := h s (List.mem_cons_self s t)
    cases t with
    | nil =>
      obtain ⟨f2, rfl⟩ : ∃ f2, f = f2 + 1 := ⟨f - 1, by omega⟩
      show parseElems (f2 + 1 + 1) (jsonQuote s ++ ']' :: rest) = _
      rw [parseElems_step]
      rw [parseVal_quoted s (']' :: rest) f2 hs]
      simp only [skipWs_cons_of ']' rest (by decide)]
      rfl
    | cons y t2 =>
      obtain ⟨f2, rfl⟩ : ∃ f2, f = f2 + 1 := ⟨f - 1, by omega⟩
      have hassoc :
          stringifyElems ((s :: y :: t2).map Json.str) ++ ']' :: rest
            = jsonQuote s ++ ',' ::
                (stringifyElems ((y :: t2).map Json.str) ++ ']' :: rest) := by
        simp [stringifyElems, jsonStringifyChars]
      rw [hassoc]
      rw [parseElems_step]
      rw [parseVal_quoted s _ f2 hs]
      have iht := ih rest (f2 + 1) (fun q hq => h q (List.mem_cons_of_mem s hq))
        (by simp) (by simp only [List.length_cons] at hfuel ⊢; omega)
      simp only [skipWs_cons_of ','
        (stringifyElems ((y :: t2).map Json.str) ++ ']' :: rest) (by decide)]
      rw [iht]
      rfl

/-- Parsing the full serialised array of valid ids. -/
theorem parseVal_strArray (l : List String) (rest : List Char) (fuel : Nat)
    (h : ∀ s ∈ l, validId s = true) (hfuel : l.length + 2 ≤ fuel) :
    parseVal fuel ('[' :: (stringifyElems (l.map Json.str) ++ ']' :: rest))
      = some (Json.arr (l.map Json.str), rest) := by
  obtain ⟨f, rfl⟩ : ∃ f, fuel = f + 1 := ⟨fuel - 1, by omega⟩
  rw [parseVal_bracket]
  cases l with
  | nil =>
    simp only [List.map_nil, stringifyElems, List.nil_append]
    rw [skipWs_cons_of ']' rest (by decide)]
    rfl
  | cons s t =>
    have hQ : stringifyElems ((s :: t).map Json.str) ++ ']' :: rest
        = '"' :: (((s.data.map jsonEscapeChar).flatten ++ ['"']) ++
            (match t with
             | [] => ']' :: rest
             | y :: t2 =>
               ',' :: (stringifyElems ((y :: t2).map Json.str) ++ ']' :: rest))) := by
      cases t <;> simp [stringifyElems, jsonStringifyChars, jsonQuote]
    rw [hQ, skipWs_cons_of '"' _ (by decide)]
    show ((fun p : List Json × List Char => (Json.arr p.1, p.2)) <$>
        parseElems f ('"' :: _)) = _
    rw [← hQ]
    rw [parseElems_quoted (s :: t) rest f h (by simp)
      (by simp only [List.length_cons] at hfuel ⊢; omega)]
    rfl

theorem stringifyElems_len (l : List String) :
    l.length ≤ (stringifyElems (l.map Json.str)).length + 1 := by
  induction l with
  | nil => simp
  | cons s t ih =>
    cases t with
    | nil => simp
    | cons y t2 =>
      have hq : (jsonQuote s).length = (s.data.map jsonEscapeChar).flatten.length + 2 := by
        simp [jsonQuote]
      simp only [List.map_cons, stringifyElems, jsonStringifyChars,
        List.length_append, List.length_cons] at ih ⊢
      omega

/-- Round trip of `JSON.parse` over `JSON.stringify` on arrays of valid
account identifiers. -/
theorem jsonParse_stringify_ids (l : List String) (h : ∀ s ∈ l, validId s = true) :
    jsonParse (jsonStringify (Json.arr (l.map Json.str)))
      = some (Json.arr (l.map Json.str)) := by
  show jsonParseChars (jsonStringifyChars (Json.arr (l.map Json.str))) = _
  have he : jsonStringifyChars (Json.arr (l.map Json.str))
      = '[' :: (stringifyElems (l.map Json.str) ++ ']' :: []) := by
    simp [jsonStringifyChars]
  rw [he]
  simp only [jsonParseChars]
  rw [parseVal_strArray l [] _ h (by
    have hlen := stringifyElems_len l
    simp only [List.length_cons, List.length_append]
    omega)]
  rfl

/-- C5: strict source priority of the resolver: the single-account claim
is used exactly when the multi-account claim yields nothing, the subject
identifier exactly when both yield nothing, and the two fallbacks produce
one-element lists. -/
theorem account_source_priority (p : IdTokenPayload) :
    (multiAccountIds p ≠ [] → extractAllLwaiUserIds p = multiAccountIds p)
  ∧ (multiAccountIds p = [] → singleAccountIds p ≠ [] →
      extractAllLwaiUserIds p = singleAccountIds p ∧ ∃ v, singleAccountIds p = [v])
  ∧ (multiAccountIds p = [] → singleAccountIds p = [] →
      extractAllLwaiUserIds p = [Json.str p.sub]) := by
  refine ⟨?_, ?_, ?_⟩
  · intro hm
    have h1 : 0 < (multiAccountIds p).length := List.length_pos.mpr hm
    simp [extractAllLwaiUserIds, h1]
  · intro hm hs
    have h2 : 0 < (singleAccountIds p).length := List.length_pos.mpr hs
    refine ⟨by simp [extractAllLwaiUserIds, hm, h2], ?_⟩
    unfold singleAccountIds at hs ⊢
    cases hu : p.user_id with
    | none => rw [hu] at hs; exact absurd rfl hs
    | some v =>
      rw [hu] at hs
      cases ht : truthy v with
      | false => simp [ht] at hs
      | true => exact ⟨v, by simp [ht]⟩
  · intro hm hs
    simp [extractAllLwaiUserIds, hm, hs]

/-- C5 witness: an empty multi-account claim falls back to the
single-account claim as a one-element list, and with both empty the
subject is used. -/
theorem account_source_priority_witness :
    extractAllLwaiUserIds ⟨none, some (Json.str "u"), "s"⟩ = [Json.str "u"]
  ∧ extractAllLwaiUserIds ⟨none, none, "s"⟩ = [Json.str "s"] :=
  ⟨((account_source_priority ⟨none, some (Json.str "u"), "s"⟩).2.1 rfl
      (by intro h; exact absurd (congrArg List.length h) (by decide))).1,
   (account_source_priority ⟨none, none, "s"⟩).2.2 rfl rfl⟩

theorem mk_cons_ne_empty (c : Char) (cs : List Char) : String.mk (c :: cs) ≠ "" := by
  intro h
  have h2 : c :: cs = ([] : List Char) := congrArg String.data h
  exact List.noConfusion h2

theorem str_truthy (s : String) (h : s.data ≠ []) : truthy (Json.str s) = true := by
  have hne : s ≠ "" := by
    intro he
    rw [he] at h
    exact h rfl
  simp [truthy, hne]

theorem lwaiViaJson_cons_ne (c : Char) (cs : List Char) (h : c ≠ '[') :
    lwaiViaJson (c :: cs) = none := by
  unfold lwaiViaJson
  split
  · rename_i x heq
    rw [List.cons.injEq] at heq
    exact absurd heq.1 h
  · rfl

theorem jsTrim_all_not_ws (cs : List Char) (h : ∀ c ∈ cs, jsWsChar c = false) :
    jsTrim cs = cs := by
  refine jsTrim_eq_self cs ?_ ?_
  · intro c hc
    cases cs with
    | nil => simp at hc
    | cons d rest =>
      rw [List.head?_cons, Option.some_inj] at hc
      exact h c (hc ▸ List.mem_cons_self d rest)
  · intro c hc
    obtain ⟨hne2, rfl⟩ := List.mem_getLast?_eq_getLast (show c ∈ cs.getLast? from hc)
    exact h _ (List.getLast_mem hne2)

theorem joinCommaStrs_ws (l : List String) (h : ∀ s ∈ l, validId s = true) :
    ∀ c ∈ joinCommaStrs l, jsWsChar c = false := by
  induction l with
  | nil => intro c hc; simp [joinCommaStrs] at hc
  | cons s t ih =>
    have hs := h s (List.mem_cons_self s t)
    rw [validId, Bool.and_eq_true, List.all_eq_true] at hs
    intro c hc
    cases t with
    | nil => exact plain_not_ws c (hs.2 c hc)
    | cons y t2 =>
      rw [show joinCommaStrs (s :: y :: t2)
          = s.data ++ ',' :: joinCommaStrs (y :: t2) from rfl] at hc
      rcases List.mem_append.mp hc with hc1 | hc2
      · exact plain_not_ws c (hs.2 c hc1)
      · rcases List.mem_cons.mp hc2 with rfl | hc3
        · decide
        · exact ih (fun q hq => h q (List.mem_cons_of_mem s hq)) c hc3

/-- The JSON encoding of a non-empty valid id list resolves through the
JSON-array branch. -/
theorem lwaiFromString_json (l : List String)
    (h : ∀ s ∈ l, validId s = true) (hne : l ≠ []) :
    lwaiFromString (jsonStringify (Json.arr (l.map Json.str))) = l.map Json.str := by
  have hdata : (jsonStringify (Json.arr (l.map Json.str))).data
      = '[' :: (stringifyElems (l.map Json.str) ++ [']']) := by
    show jsonStringifyChars (Json.arr (l.map Json.str)) = _
    simp [jsonStringifyChars]
  have htrim : jsTrim (jsonStringify (Json.arr (l.map Json.str))).data
      = (jsonStringify (Json.arr (l.map Json.str))).data := by
    rw [hdata]
    refine jsTrim_eq_self _ ?_ ?_
    · intro c hc
      rw [List.head?_cons, Option.some_inj] at hc
      rw [← hc]
      decide
    · intro c hc
      rw [show '[' :: (stringifyElems (l.map Json.str) ++ [']'])
          = ('[' :: stringifyElems (l.map Json.str)) ++ [']'] by simp] at hc
      rw [List.getLast?_concat] at hc
      rw [Option.some_inj] at hc
      rw [← hc]
      decide
  have hparse : jsonParseChars (jsonStringify (Json.arr (l.map Json.str))).data
      = some (Json.arr (l.map Json.str)) := jsonParse_stringify_ids l h
  unfold lwaiFromString
  rw [htrim, hdata]
  rw [show lwaiViaJson ('[' :: (stringifyElems (l.map Json.str) ++ [']']))
      = (match jsonParseChars ('[' :: (stringifyElems (l.map Json.str) ++ [']'])) with
         | some (Json.arr parsed) => if 0 < parsed.length then some parsed else none
         | _ => none) from rfl]
  rw [← hdata, hparse]
  have hll : 0 < l.length := List.length_pos.mpr hne
  simp [hll]

/-- The comma encoding of a non-empty valid id list resolves through the
comma-delimited branch. -/
theorem lwaiFromString_comma (l : List String)
    (h : ∀ s ∈ l, validId s = true) (hne : l ≠ []) :
    lwaiFromString (String.mk (joinCommaStrs l)) = l.map Json.str := by
  have htrim : jsTrim (joinCommaStrs l) = joinCommaStrs l :=
    jsTrim_all_not_ws _ (joinCommaStrs_ws l h)
  obtain ⟨s, t, rfl⟩ : ∃ s t, l = s :: t := by
    cases l with
    | nil => exact absurd rfl hne
    | cons s t => exact ⟨s, t, rfl⟩
  have hs := h s (List.mem_cons_self s t)
  rw [validId, Bool.and_eq_true] at hs
  obtain ⟨c0, cs0, hsd⟩ : ∃ c0 cs0, s.data = c0 :: cs0 := by
    cases hd : s.data with
    | nil => rw [hd] at hs; exact absurd hs.1 (by decide)
    | cons c0 cs0 => exact ⟨c0, cs0, rfl⟩
  have hc0 : plainIdChar c0 = true := by
    have := hs.2
    rw [hsd, List.all_cons, Bool.and_eq_true] at this
    exact this.1
  obtain ⟨tail0, hstruct⟩ : ∃ tail0, joinCommaStrs (s :: t) = c0 :: tail0 := by
    cases t with
    | nil => exact ⟨cs0, by rw [show joinCommaStrs [s] = s.data from rfl, hsd]⟩
    | cons y t2 =>
      refine ⟨cs0 ++ ',' :: joinCommaStrs (y :: t2), ?_⟩
      rw [show joinCommaStrs (s :: y :: t2)
          = s.data ++ ',' :: joinCommaStrs (y :: t2) from rfl, hsd]
      rfl
  unfold lwaiFromString
  rw [show (String.mk (joinCommaStrs (s :: t))).data = joinCommaStrs (s :: t) from rfl]
  rw [htrim, hstruct,
    lwaiViaJson_cons_ne c0 tail0 (plain_ne c0 hc0 '[' (by decide)), ← hstruct,
    commaSplitIds_join (s :: t) h]
  simp

/-- C4: the three physical encodings of a multi-account claim — JSON
array, comma-delimited, bare string — all resolve to the same logical id
list; the concrete forms of the spec parse as stated; and a string that
begins with a bracket but fails JSON parsing falls back to the
comma-delimited splitting. -/
theorem multi_account_encodings (l : List String) (u : Option Json) (sub : String)
    (h : ∀ s ∈ l, validId s = true) (hne : l ≠ []) :
    extractAllLwaiUserIds
        ⟨some (Json.str (jsonStringify (Json.arr (l.map Json.str)))), u, sub⟩
      = l.map Json.str
  ∧ extractAllLwaiUserIds ⟨some (Json.str (String.mk (joinCommaStrs l))), u, sub⟩
      = l.map Json.str
  ∧ (∀ id, l = [id] →
      extractAllLwaiUserIds ⟨some (Json.str id), u, sub⟩ = [Json.str id])
  ∧ extractAllLwaiUserIds ⟨some (Json.str "a,b, c"), u, sub⟩
      = [Json.str "a", Json.str "b", Json.str "c"]
  ∧ (∀ s : String, (∃ cs, jsTrim s.data = '[' :: cs) →
      jsonParseChars (jsTrim s.data) = none →
      multiAccountIds ⟨some (Json.str s), u, sub⟩
        = (if 0 < (commaSplitIds (jsTrim s.data)).length then
             (commaSplitIds (jsTrim s.data)).map Json.str
           else [])) := by
  have hmulti : ∀ s : String, s.data ≠ [] →
      multiAccountIds ⟨some (Json.str s), u, sub⟩ = lwaiFromString s := by
    intro s hsne
    simp [multiAccountIds, str_truthy s hsne]
  have hextract : ∀ s : String, s.data ≠ [] → lwaiFromString s ≠ [] →
      extractAllLwaiUserIds ⟨some (Json.str s), u, sub⟩ = lwaiFromString s := by
    intro s hsne hfne
    have hm := hmulti s hsne
    have hpos : 0 < (multiAccountIds ⟨some (Json.str s), u, sub⟩).length := by
      rw [hm]
      exact List.length_pos.mpr hfne
    show (if 0 < (multiAccountIds ⟨some (Json.str s), u, sub⟩).length
        then multiAccountIds ⟨some (Json.str s), u, sub⟩
        else if 0 < (singleAccountIds ⟨some (Json.str s), u, sub⟩).length
          then singleAccountIds ⟨some (Json.str s), u, sub⟩
          else [Json.str sub]) = lwaiFromString s
    rw [if_pos hpos, hm]
  have hmapne : l.map Json.str ≠ [] := by
    intro hmap
    exact hne (List.map_eq_nil_iff.mp hmap)
  refine ⟨?_, ?_, ?_, ?_, ?_⟩
  · have hdne : (jsonStringify (Json.arr (l.map Json.str))).data ≠ [] := by
      rw [show (jsonStringify (Json.arr (l.map Json.str))).data
          = jsonStringifyChars (Json.arr (l.map Json.str)) from rfl]
      simp [jsonStringifyChars]
    rw [hextract _ hdne (by rw [lwaiFromString_json l h hne]; exact hmapne)]
    exact lwaiFromString_json l h hne
  · have hjne : joinCommaStrs l ≠ [] := by
      obtain ⟨s, t, rfl⟩ : ∃ s t, l = s :: t := by
        cases l with
        | nil => exact absurd rfl hne
        | cons s t => exact ⟨s, t, rfl⟩
      have hs := h s (List.mem_cons_self s t)
      rw [validId, Bool.and_eq_true] at hs
      cases hd : s.data with
      | nil => rw [hd] at hs; exact absurd hs.1 (by decide)
      | cons c0 cs0 =>
        cases t with
        | nil =>
          rw [show joinCommaStrs [s] = s.data from rfl, hd]
          exact List.cons_ne_nil c0 cs0
        | cons y t2 =>
          rw [show joinCommaStrs (s :: y :: t2)
              = s.data ++ ',' :: joinCommaStrs (y :: t2) from rfl, hd]
          exact List.cons_ne_nil c0 _
    rw [hextract _ hjne (by rw [lwaiFromString_comma l h hne]; exact hmapne)]
    exact lwaiFromString_comma l h hne
  · rintro id rfl
    have hid : String.mk (joinCommaStrs [id]) = id := by
      rw [show joinCommaStrs [id] = id.data from rfl]
    have h2 := lwaiFromString_comma [id] h hne
    rw [hid] at h2
    have hidne : id.data ≠ [] := by
      have hv := h id (List.mem_cons_self id [])
      rw [validId, Bool.and_eq_true] at hv
      intro hd
      rw [hd] at hv
      exact absurd hv.1 (by decide)
    rw [hextract id hidne (by rw [h2]; exact hmapne)]
    exact h2
  · rfl
  · intro s hbr hp
    obtain ⟨cs, hcs⟩ := hbr
    have hsne : s.data ≠ [] := by
      intro hd
      rw [hd] at hcs
      exact List.noConfusion hcs
    rw [hmulti s hsne]
    unfold lwaiFromString
    rw [hcs]
    rw [show lwaiViaJson ('[' :: cs)
        = (match jsonParseChars ('[' :: cs) with
           | some (Json.arr parsed) => if 0 < parsed.length then some parsed else none
           | _ => none) from rfl]
    rw [← hcs, hp, hcs]

/-- C4 witness: the three concrete encodings of the spec, evaluated. -/
theorem multi_account_encodings_witness :
    extractAllLwaiUserIds ⟨some (Json.str "[\"a\",\"b\"]"), none, "s"⟩
        = [Json.str "a", Json.str "b"]
  ∧ extractAllLwaiUserIds ⟨some (Json.str "a,b"), none, "s"⟩
        = [Json.str "a", Json.str "b"]
  ∧ extractAllLwaiUserIds ⟨some (Json.str "a"), none, "s"⟩ = [Json.str "a"]
  ∧ extractAllLwaiUserIds ⟨some (Json.str "a,b, c"), none, "s"⟩
        = [Json.str "a", Json.str "b", Json.str "c"] := by
  refine ⟨?_, ?_, ?_, ?_⟩
  · have h := (multi_account_encodings ["a", "b"] none "s" (by decide) (by decide)).1
    rwa [show jsonStringify (Json.arr (["a", "b"].map Json.str))
        = "[\"a\",\"b\"]" from rfl] at h
  · have h := (multi_account_encodings ["a", "b"] none "s" (by decide) (by decide)).2.1
    rwa [show String.mk (joinCommaStrs ["a", "b"]) = "a,b" from rfl] at h
  · exact (multi_account_encodings ["a"] none "s" (by decide) (by decide)).2.2.1 "a" rfl
  · exact (multi_account_encodings ["x"] none "s" (by decide) (by decide)).2.2.2.1

/-- C6: switching accounts against a persisted id list errors with the
invalid-index message and leaves the store untouched when the index is out
of [0, N-1], and otherwise persists the index and the selected id. -/
theorem switch_account_rules (ids : List String) (index : Int) (store : LocalStore)
    (hstore : store.available_user_ids
      = some (jsonStringify (Json.arr (ids.map Json.str))))
    (hvalid : ∀ s ∈ ids, validId s = true) :
    ((index < 0 ∨ (ids.length : Int) ≤ index) →
      switchUserAccount store index
        = (Except.error "Invalid user account index", store))
  ∧ (0 ≤ index → index < (ids.length : Int) →
      ∀ uid, ids[index.toNat]? = some uid →
        switchUserAccount store index
          = (Except.ok (),
             { store with
                selected_user_id_index := some (toString index),
                user_id := some uid })) := by
  have hparse : jsonParse (getItemOr store.available_user_ids "[]")
      = some (Json.arr (ids.map Json.str)) := by
    rw [hstore]
    have hne2 : jsonStringify (Json.arr (ids.map Json.str)) ≠ "" :=
      mk_cons_ne_empty '[' (stringifyElems (ids.map Json.str) ++ [']'])
    rw [show getItemOr (some (jsonStringify (Json.arr (ids.map Json.str)))) "[]"
        = if jsonStringify (Json.arr (ids.map Json.str)) = ""
          then "[]" else jsonStringify (Json.arr (ids.map Json.str)) from rfl]
    rw [if_neg hne2]
    exact jsonParse_stringify_ids ids hvalid
  constructor
  · intro hout
    have hcond : (decide (index < 0) ||
        (match jsLength (Json.arr (ids.map Json.str)) with
         | some n => decide ((n : Int) ≤ index)
         | none => false)) = true := by
      rw [show jsLength (Json.arr (ids.map Json.str))
          = some (ids.map Json.str).length from rfl]
      show (decide (index < 0) || decide (((ids.map Json.str).length : Int) ≤ index)) = true
      rw [List.length_map]
      rcases hout with h1 | h1
      · simp [h1]
      · simp [h1]
    simp only [switchUserAccount, hparse, hcond, if_true]
  · intro h0 hlt uid huid
    have hcond : (decide (index < 0) ||
        (match jsLength (Json.arr (ids.map Json.str)) with
         | some n => decide ((n : Int) ≤ index)
         | none => false)) = false := by
      rw [show jsLength (Json.arr (ids.map Json.str))
          = some (ids.map Json.str).length from rfl]
      show (decide (index < 0) || decide (((ids.map Json.str).length : Int) ≤ index)) = false
      rw [List.length_map]
      simp only [Bool.or_eq_false_iff, decide_eq_false_iff_not]
      omega
    simp only [switchUserAccount, hparse, hcond, Bool.false_eq_true, if_false]
    rw [show jsIndexGet (Json.arr (ids.map Json.str)) index
        = if index < 0 then none else (ids.map Json.str)[index.toNat]? from rfl]
    rw [if_neg (by omega)]
    rw [List.getElem?_map, huid]
    rfl

/-- C6 witness: with persisted ids ["a", "b"], switching to index 5 errors
and preserves the store, and switching to index 1 persists "1" and "b". -/
theorem switch_account_rules_witness :
    switchUserAccount
        ⟨some "me", some "a", some "[\"a\",\"b\"]", some "0"⟩ 5
      = (Except.error "Invalid user account index",
         ⟨some "me", some "a", some "[\"a\",\"b\"]", some "0"⟩)
  ∧ switchUserAccount
        ⟨some "me", some "a", some "[\"a\",\"b\"]", some "0"⟩ 1
      = (Except.ok (),
         ⟨some "me", some "b", some "[\"a\",\"b\"]", some "1"⟩) := by
  have hstore : (⟨some "me", some "a", some "[\"a\",\"b\"]", some "0"⟩ :
      LocalStore).available_user_ids
      = some (jsonStringify (Json.arr (["a", "b"].map Json.str))) := rfl
  constructor
  · exact (switch_account_rules ["a", "b"] 5 _ hstore (by decide)).1
      (Or.inr (by decide))
  · exact (switch_account_rules ["a", "b"] 1 _ hstore (by decide)).2
      (by decide) (by decide) "b" rfl
